import Mathlib

/-!
Verification development for a thin instrumentation layer over a Redis
key-value store (files `exercise.py` and `web.py`).

Modelling conventions:
* Byte strings are modelled as Lean `String`s (`Bytes`): the store only ever
  moves bytes around, so the concrete byte encoding is immaterial; a Python
  `str` and its UTF-8 byte serialization are identified.
* A Redis database is a function `String → Option RVal`, where a key holds
  either a byte-string or a list of byte-strings (the only two Redis types the
  code uses).  Type errors (`WRONGTYPE`, non-integer `INCR` targets) and
  propagated Python exceptions are modelled with `Except String`; stateful
  operations return the resulting state alongside the `Except`, so that
  mutations performed before a raise survive it, exactly as on a real server.
* Redis `INCR` parses the stored decimal byte-string and stores the decimal
  representation of the successor; the decimal codec is given explicitly
  below (`intToBytes` / `bytesToInt`) together with its round-trip theorem.
-/

/-- Byte strings, modelled as Lean strings. -/
abbrev Bytes := String

/-- A Redis value: a byte-string or a list of byte-strings. -/
inductive RVal where
  | str (b : Bytes)
  | list (xs : List Bytes)
  deriving DecidableEq

/-- A Redis database: each key holds nothing or one `RVal`. -/
abbrev RedisState := String → Option RVal

/-- Point update of a database. -/
def rupdate (st : RedisState) (k : String) (v : RVal) : RedisState :=
  fun q => if q = k then some v else st q

/-- The empty database. -/
def rempty : RedisState := fun _ => none

theorem rupdate_self (st : RedisState) (k : String) (v : RVal) :
    rupdate st k v k = some v := by
  simp [rupdate]

theorem rupdate_ne (st : RedisState) (k : String) (v : RVal) (q : String)
    (h : q ≠ k) : rupdate st k v q = st q := by
  simp [rupdate, h]

/-! ### Decimal codec used by Redis INCR and Python int() -/

/-- The ASCII digit character for `d` (meaningful for `d < 10`). -/
def digitChar (d : Nat) : Char := Char.ofNat (48 + d)

/-- Inverse of `digitChar` on ASCII digits. -/
def charDigit (c : Char) : Option Nat :=
  if 48 ≤ c.toNat ∧ c.toNat ≤ 57 then some (c.toNat - 48) else none

/-- Little-endian digit list of `n` (base 10), driven by a fuel argument so
that the recursion is structural. -/
def toDigitsAux : Nat → Nat → List Nat
  | 0, _ => []
  | _ + 1, 0 => []
  | fuel + 1, n + 1 => (n + 1) % 10 :: toDigitsAux fuel ((n + 1) / 10)

/-- Little-endian base-10 digits of `n` (empty for 0). -/
def natDigits (n : Nat) : List Nat := toDigitsAux n n

/-- Value of a little-endian digit list. -/
def digitsVal : List Nat → Nat
  | [] => 0
  | d :: ds => d + 10 * digitsVal ds

theorem charDigit_digitChar (d : Nat) (h : d < 10) :
    charDigit (digitChar d) = some d := by
  interval_cases d <;> decide

theorem digitChar_ne_dash (d : Nat) (h : d < 10) : digitChar d ≠ '-' := by
  interval_cases d <;> decide

/-- Parse every character of a list as a digit; `none` if any is not one. -/
def charsToDigits : List Char → Option (List Nat)
  | [] => some []
  | c :: cs =>
    match charDigit c, charsToDigits cs with
    | some d, some ds => some (d :: ds)
    | _, _ => none

theorem charsToDigits_map_digitChar (l : List Nat) (h : ∀ d ∈ l, d < 10) :
    charsToDigits (l.map digitChar) = some l := by
  induction l with
  | nil => rfl
  | cons d ds ih =>
    have hd : d < 10 := h d (List.mem_cons_self _ _)
    have hds : ∀ x ∈ ds, x < 10 := fun x hx => h x (List.mem_cons_of_mem _ hx)
    simp [charsToDigits, charDigit_digitChar d hd, ih hds]

theorem toDigitsAux_spec (fuel : Nat) : ∀ n, n ≤ fuel →
    digitsVal (toDigitsAux fuel n) = n ∧ ∀ d ∈ toDigitsAux fuel n, d < 10 := by
  induction fuel with
  | zero =>
    intro n hn
    interval_cases n
    exact ⟨rfl, by simp [toDigitsAux]⟩
  | succ f ih =>
    intro n hn
    match n with
    | 0 => exact ⟨rfl, by simp [toDigitsAux]⟩
    | m + 1 =>
      have hdiv : (m + 1) / 10 ≤ f := by
        have h1 : (m + 1) / 10 < m + 1 := Nat.div_lt_self (Nat.succ_pos m) (by omega)
        omega
      obtain ⟨h1, h2⟩ := ih ((m + 1) / 10) hdiv
      constructor
      · simp only [toDigitsAux, digitsVal, h1]
        omega
      · intro d hd
        simp only [toDigitsAux, List.mem_cons] at hd
        rcases hd with h | h
        · subst h
          exact Nat.mod_lt _ (by omega)
        · exact h2 d h

/-- Decimal byte-string of a natural number. -/
def natToBytes (n : Nat) : Bytes :=
  if n = 0 then "0" else String.mk ((natDigits n).reverse.map digitChar)

/-- Parse a non-empty all-digit character list (big-endian). -/
def natFromChars (l : List Char) : Option Nat :=
  if l = [] then none
  else (charsToDigits l).map (fun ds => digitsVal ds.reverse)

/-- Decimal byte-string of an integer. -/
def intToBytes : Int → Bytes
  | .ofNat n => natToBytes n
  | .negSucc m => "-" ++ natToBytes (m + 1)

/-- Parse an integer: an optional leading minus sign followed by digits. -/
def bytesToInt (s : Bytes) : Option Int :=
  match s.data with
  | [] => none
  | c :: rest =>
    if c = '-' then (natFromChars rest).map (fun n => -(n : Int))
    else (natFromChars (c :: rest)).map (fun n => (n : Int))

theorem string_mk_data (l : List Char) : (String.mk l).data = l := rfl

theorem string_data_append (s t : String) : (s ++ t).data = s.data ++ t.data := rfl

theorem natFromChars_map (l : List Nat) (hne : l ≠ []) (h : ∀ d ∈ l, d < 10) :
    natFromChars (l.map digitChar) = some (digitsVal l.reverse) := by
  unfold natFromChars
  rw [if_neg (by simpa using hne)]
  rw [charsToDigits_map_digitChar l h]
  rfl

theorem natDigits_ne_nil (n : Nat) (h : n ≠ 0) : natDigits n ≠ [] := by
  match n, h with
  | m + 1, _ => simp [natDigits, toDigitsAux]

theorem natFromChars_natToBytes (n : Nat) :
    natFromChars (natToBytes n).data = some n := by
  by_cases hn : n = 0
  · subst hn; decide
  · obtain ⟨h1, h2⟩ := toDigitsAux_spec n n (le_refl n)
    have hne : (natDigits n).reverse ≠ [] := by
      simp [natDigits_ne_nil n hn]
    have h2' : ∀ d ∈ (natDigits n).reverse, d < 10 := by
      intro d hd
      exact h2 d (List.mem_reverse.mp hd)
    simp only [natToBytes, if_neg hn, string_mk_data]
    rw [natFromChars_map _ hne h2']
    rw [List.reverse_reverse]
    exact congrArg some h1

theorem natToBytes_data_cons (n : Nat) (h : n ≠ 0) :
    ∃ d l, d < 10 ∧ (natToBytes n).data = digitChar d :: l := by
  obtain ⟨h1, h2⟩ := toDigitsAux_spec n n (le_refl n)
  have hne : (natDigits n).reverse ≠ [] := by
    simp [natDigits_ne_nil n h]
  match hrev : (natDigits n).reverse with
  | [] => exact absurd hrev hne
  | a :: as =>
    have ha : a < 10 := by
      have : a ∈ (natDigits n).reverse := by rw [hrev]; exact List.mem_cons_self _ _
      exact h2 a (List.mem_reverse.mp this)
    refine ⟨a, as.map digitChar, ha, ?_⟩
    simp only [natToBytes, if_neg h, string_mk_data, hrev, List.map_cons]

/-- The decimal codec round-trips: parsing the printed form of any integer
recovers it. -/
theorem bytesToInt_intToBytes (n : Int) : bytesToInt (intToBytes n) = some n := by
  cases n with
  | ofNat m =>
    by_cases hm : m = 0
    · subst hm; decide
    · obtain ⟨d, l, hd, hdata⟩ := natToBytes_data_cons m hm
      have h1 : bytesToInt (intToBytes (Int.ofNat m))
          = if digitChar d = '-' then (natFromChars l).map (fun k => -(k : Int))
            else (natFromChars (digitChar d :: l)).map (fun k => (k : Int)) := by
        show bytesToInt (natToBytes m) = _
        unfold bytesToInt
        rw [hdata]
      rw [h1, if_neg (digitChar_ne_dash d hd), ← hdata]
      rw [natFromChars_natToBytes m]
      rfl
  | negSucc m =>
    have h1 : bytesToInt (intToBytes (Int.negSucc m))
        = (natFromChars (natToBytes (m + 1)).data).map (fun n => -(n : Int)) := rfl
    rw [h1, natFromChars_natToBytes (m + 1)]
    have h2 : -(((m + 1 : Nat) : Int)) = Int.negSucc m := by
      rw [Int.negSucc_eq]
      push_cast
      ring
    show some (-(((m + 1 : Nat) : Int))) = some (Int.negSucc m)
    rw [h2]

/-! ### Redis operations used by the code

Stateful operations return `Except String α × RedisState` so that mutations
performed before a raised error survive the raise, as on a real server. -/

/-- Redis `SET key value`: stores a byte-string, overwriting any previous value. -/
def rset (st : RedisState) (k : String) (v : Bytes) : RedisState :=
  rupdate st k (.str v)

/-- Redis `GET key`: the byte-string at `k`; `none` when absent; `WRONGTYPE` error
when the key holds a list. -/
def rget (st : RedisState) (k : String) : Except String (Option Bytes) :=
  match st k with
  | none => .ok none
  | some (.str b) => .ok (some b)
  | some (.list _) => .error "WRONGTYPE"

/-- Redis `INCR key`: parses the stored decimal value (0 when absent), stores its
successor and returns it; errors on non-integer or list values. -/
def rincr (st : RedisState) (k : String) : Except String Int × RedisState :=
  match st k with
  | none => (.ok 1, rupdate st k (.str (intToBytes 1)))
  | some (.str b) =>
    match bytesToInt b with
    | some n => (.ok (n + 1), rupdate st k (.str (intToBytes (n + 1))))
    | none => (.error "value is not an integer or out of range", st)
  | some (.list _) => (.error "WRONGTYPE", st)

/-- Redis `RPUSH key value`: appends to the list at `k`, creating it when absent;
errors when the key holds a byte-string. -/
def rpush (st : RedisState) (k : String) (v : Bytes) : Except String Nat × RedisState :=
  match st k with
  | none => (.ok 1, rupdate st k (.list [v]))
  | some (.list xs) => (.ok (xs.length + 1), rupdate st k (.list (xs ++ [v])))
  | some (.str _) => (.error "WRONGTYPE", st)

/-- Redis `EXISTS key`. -/
def rexists (st : RedisState) (k : String) : Bool :=
  (st k).isSome

/-- Redis `LRANGE key 0 -1`: the whole list; empty when absent; errors on a
byte-string key. -/
def lrangeAll (st : RedisState) (k : String) : Except String (List Bytes) :=
  match st k with
  | none => .ok []
  | some (.list xs) => .ok xs
  | some (.str _) => .error "WRONGTYPE"

/-- Redis `FLUSHDB`: clears every key. -/
def rflushdb (_st : RedisState) : RedisState := rempty

/-- Redis `SETEX key ttl value`: stores the value.  The embedding has no clock, so
the time-to-live argument is recorded by the caller but expiry itself is not
modelled; within the expiry window the key simply holds the value. -/
def rsetex (st : RedisState) (k : String) (_ttl : Nat) (v : Bytes) : RedisState :=
  rupdate st k (.str v)

/-! ### Observers -/

/-- Length of the list at `k` (0 when absent or not a list). -/
def llen (st : RedisState) (k : String) : Nat :=
  match st k with
  | some (.list xs) => xs.length
  | _ => 0

/-- The list at `k` (empty when absent or not a list). -/
def listAt (st : RedisState) (k : String) : List Bytes :=
  match st k with
  | some (.list xs) => xs
  | _ => []

/-- The integer a counter key denotes: 0 when absent (Redis counters are
implicitly 0), the parsed decimal value for a byte-string, `none` for a list
or unparsable bytes. -/
def counterRead (st : RedisState) (k : String) : Option Int :=
  match st k with
  | none => some 0
  | some (.str b) => bytesToInt b
  | some (.list _) => none

/-! ### Lemmas about the operations -/


theorem rpush_frame (st : RedisState) (k : String) (v : Bytes) (q : String)
    (h : q ≠ k) : (rpush st k v).2 q = st q := by
  rcases hk : st k with _ | w
  · simp [rpush, hk, rupdate_ne st k _ q h]
  · rcases w with b | xs
    · simp [rpush, hk]
    · simp [rpush, hk, rupdate_ne st k _ q h]

theorem rincr_frame (st : RedisState) (k : String) (q : String)
    (h : q ≠ k) : (rincr st k).2 q = st q := by
  rcases hk : st k with _ | w
  · simp [rincr, hk, rupdate_ne st k _ q h]
  · rcases w with b | xs
    · rcases hb : bytesToInt b with _ | n
      · simp [rincr, hk, hb]
      · simp [rincr, hk, hb, rupdate_ne st k _ q h]
    · simp [rincr, hk]

theorem rpush_at_none (st : RedisState) (k : String) (v : Bytes)
    (h : st k = none) : rpush st k v = (.ok 1, rupdate st k (.list [v])) := by
  simp [rpush, h]

theorem rpush_at_list (st : RedisState) (k : String) (v : Bytes) (xs : List Bytes)
    (h : st k = some (.list xs)) :
    rpush st k v = (.ok (xs.length + 1), rupdate st k (.list (xs ++ [v]))) := by
  simp [rpush, h]

theorem rincr_at_none (st : RedisState) (k : String)
    (h : st k = none) : rincr st k = (.ok 1, rupdate st k (.str (intToBytes 1))) := by
  simp [rincr, h]

theorem rincr_at_str (st : RedisState) (k : String) (b : Bytes) (m : Int)
    (h : st k = some (.str b)) (hb : bytesToInt b = some m) :
    rincr st k = (.ok (m + 1), rupdate st k (.str (intToBytes (m + 1)))) := by
  simp [rincr, h, hb]

theorem rincr_at_int (st : RedisState) (k : String) (n : Int)
    (h : st k = some (.str (intToBytes n))) :
    rincr st k = (.ok (n + 1), rupdate st k (.str (intToBytes (n + 1)))) :=
  rincr_at_str st k _ n h (bytesToInt_intToBytes n)

/-- Successful `RPUSH` always appends to the (possibly empty) existing list. -/
theorem rpush_ok (st : RedisState) (k : String) (v : Bytes) (a : Nat) (st' : RedisState)
    (h : rpush st k v = (.ok a, st')) :
    st' = rupdate st k (.list (listAt st k ++ [v])) := by
  rcases hk : st k with _ | w
  · rw [rpush_at_none st k v hk] at h
    have h2 : rupdate st k (.list [v]) = st' := congrArg Prod.snd h
    simp [listAt, hk, ← h2]
  · rcases w with b | xs
    · simp [rpush, hk] at h
    · rw [rpush_at_list st k v xs hk] at h
      have h2 : rupdate st k (.list (xs ++ [v])) = st' := congrArg Prod.snd h
      simp [listAt, hk, ← h2]

/-- Successful `INCR` stores the printed successor of the counter it read. -/
theorem rincr_ok (st : RedisState) (k : String) (n : Int) (st' : RedisState)
    (h : rincr st k = (.ok n, st')) :
    st' = rupdate st k (.str (intToBytes n)) ∧ counterRead st k = some (n - 1) := by
  rcases hk : st k with _ | w
  · rw [rincr_at_none st k hk] at h
    have h1 : (Except.ok (1 : Int) : Except String Int) = Except.ok n :=
      congrArg Prod.fst h
    have hn : n = 1 := (Except.ok.inj h1).symm
    subst hn
    refine ⟨(congrArg Prod.snd h).symm, ?_⟩
    simp [counterRead, hk]
  · rcases w with b | xs
    · rcases hb : bytesToInt b with _ | m
      · simp [rincr, hk, hb] at h
      · rw [rincr_at_str st k b m hk hb] at h
        have h1 : (Except.ok (m + 1) : Except String Int) = Except.ok n :=
          congrArg Prod.fst h
        have hn : n = m + 1 := (Except.ok.inj h1).symm
        subst hn
        refine ⟨(congrArg Prod.snd h).symm, ?_⟩
        simp only [counterRead, hk, hb]
        congr 1
        omega
    · simp [rincr, hk] at h

/-! ### The Python layer (`exercise.py`)

`Cache.store` accepts a scalar of type `str`, `bytes`, `int` or `float`; the
Redis client serializes every scalar to bytes on `SET`.  Floats are carried
by their decimal serialization (the store never computes with them, it only
moves their byte representation). -/

/-- A storable scalar: the `Union[str, bytes, int, float]` of `Cache.store`. -/
inductive Scalar where
  | text (s : String)
  | binary (b : Bytes)
  | int (n : Int)
  | float (r : String)
  deriving DecidableEq

/-- Client-side serialization of a scalar to the bytes written by `SET`:
text and binary pass through (bytes are modelled as strings), integers print
in decimal, floats are carried by their serialization. -/
def Scalar.encode : Scalar → Bytes
  | .text s => s
  | .binary b => b
  | .int n => intToBytes n
  | .float r => r

/-- Python `repr` of a scalar as it appears inside `str(args)`; string quoting
is rendered with plain apostrophes and escape sequences are not modelled
(no call in this development stores a quote character). -/
def pyRepr : Scalar → String
  | .text s => "\x27" ++ s ++ "\x27"
  | .binary b => "b\x27" ++ b ++ "\x27"
  | .int n => intToBytes n
  | .float r => r

/-- Python `str` of a tuple of rendered elements. -/
def strOfTuple (xs : List String) : String :=
  match xs with
  | [x] => "(" ++ x ++ ",)"
  | _ => "(" ++ String.intercalate ", " xs ++ ")"

/-- Python `str(args)`: the display string of the positional-argument tuple that
`call_history` pushes onto the inputs list. -/
def strArgs (args : List Scalar) : Bytes := strOfTuple (args.map pyRepr)

/-- A method body as seen by the decorators: positional args, keyword args,
a byte-string return value, and the store threaded through.  The Boolean
`hasRedis` argument of each decorator models the
`isinstance(self._redis, redis.Redis)` guard (always true for a real
`Cache`). -/
abbrev Method :=
  RedisState → List Scalar → List (String × Scalar) → Except String Bytes × RedisState

/-- Model of `count_calls`: increment the counter stored under the method's qualified
name, then delegate, passing every argument through. -/
def countCalls (hasRedis : Bool) (qual : String) (m : Method) : Method :=
  fun st args kwargs =>
    match (if hasRedis then rincr st qual else (.ok 0, st)) with
    | (.error e, st1) => (.error e, st1)
    | (.ok _, st1) => m st1 args kwargs

/-- Model of `call_history`: push `str(args)` onto `qual ++ ":inputs"`, delegate with
all arguments unchanged, then push the returned value onto
`qual ++ ":outputs"`; a raise from the delegate leaves the output list
untouched. -/
def callHistory (hasRedis : Bool) (qual : String) (m : Method) : Method :=
  fun st args kwargs =>
    match (if hasRedis then rpush st (qual ++ ":inputs") (strArgs args) else (.ok 0, st)) with
    | (.error e, st1) => (.error e, st1)
    | (.ok _, st1) =>
      match m st1 args kwargs with
      | (.error e, st2) => (.error e, st2)
      | (.ok ret, st2) =>
        match (if hasRedis then rpush st2 (qual ++ ":outputs") ret else (.ok 0, st2)) with
        | (.error e, st3) => (.error e, st3)
        | (.ok _, st3) => (.ok ret, st3)

/-- Model of `Cache.__init__`: connect and `FLUSHDB` — the database is cleared. -/
def Cache.init (st : RedisState) : RedisState := rflushdb st

/-- The body of `Cache.store`, before decoration: generate a key (supplied
here as the oracle argument `key`, standing for `str(uuid.uuid4())`), `SET`
the serialized value under it, return the key.  Calls in this development
pass `data` positionally, so the body reads its one argument from `args`. -/
def storeBody (key : String) : Method :=
  fun st args _kwargs =>
    match args with
    | [data] => (.ok key, rset st key (Scalar.encode data))
    | _ => (.error "TypeError", st)

/-- The instrumented `Cache.store`:
`@call_history` outside `@count_calls` outside the body, at qualified name
`"Cache.store"`, invoked with the single positional argument `data`. -/
def Cache.store (key : String) (st : RedisState) (data : Scalar) :
    Except String Bytes × RedisState :=
  callHistory true "Cache.store" (countCalls true "Cache.store" (storeBody key))
    st [data] []

/-- A Python value returned by `Cache.get` (possibly through a decoder). -/
inductive PyVal where
  | vnone
  | vbytes (b : Bytes)
  | vstr (s : String)
  | vint (n : Int)
  deriving DecidableEq

/-- A conversion function passed to `Cache.get`. -/
abbrev Decoder := Option Bytes → Except String PyVal

/-- Model of `Cache.get`: read the raw bytes at `key`; absent keys give Python `None`
(no exception); when a decoder is supplied it is applied to the raw result. -/
def Cache.get (st : RedisState) (key : String) (fn : Option Decoder) :
    Except String PyVal :=
  match rget st key with
  | .error e => .error e
  | .ok d =>
    match fn with
    | some f => f d
    | none =>
      match d with
      | some b => .ok (.vbytes b)
      | none => .ok .vnone

/-- The decoder of `Cache.get_str`: `lambda x: x.decode("utf-8")` — the
identity on bytes in this model; on `None` it raises (AttributeError). -/
def utf8Decoder : Decoder := fun d =>
  match d with
  | some b => .ok (.vstr b)
  | none => .error "AttributeError"

/-- The decoder of `Cache.get_int`: `lambda x: int(x)`; raises on `None`
and on unparsable bytes. -/
def intDecoder : Decoder := fun d =>
  match d with
  | some b =>
    match bytesToInt b with
    | some n => .ok (.vint n)
    | none => .error "ValueError"
  | none => .error "TypeError"

/-- Model of `Cache.get_str`. -/
def Cache.getStr (st : RedisState) (key : String) : Except String PyVal :=
  Cache.get st key (some utf8Decoder)

/-- Model of `Cache.get_int`. -/
def Cache.getInt (st : RedisState) (key : String) : Except String PyVal :=
  Cache.get st key (some intDecoder)

/-! ### `replay` (`exercise.py`) -/

/-- The argument passed to `replay`, as the function inspects it:
`None`; a plain function (no `__self__`); a bound method whose owner has no
live `redis.Redis` in `_redis`; or a method bound to a real `Cache`. -/
inductive FnRef where
  | pynone
  | plainFn (qual : String)
  | boundNonRedis (qual : String)
  | boundCache (qual : String)
  deriving DecidableEq

/-- Model of `replay`: returns the printed lines.  Invalid references return early
with no output and no error; otherwise the counter (0 when the key is
absent) heads the report and inputs/outputs are paired up to the shorter
length by `zip`.  The state is returned unchanged: replay only reads. -/
def replay (fn : FnRef) (st : RedisState) :
    Except String (List String) × RedisState :=
  match fn with
  | .pynone => (.ok [], st)
  | .plainFn _ => (.ok [], st)
  | .boundNonRedis _ => (.ok [], st)
  | .boundCache q =>
    match (if rexists st q then
            match rget st q with
            | .error e => Except.error e
            | .ok none => Except.error "TypeError"
            | .ok (some b) =>
              match bytesToInt b with
              | some n => Except.ok n
              | none => Except.error "ValueError"
          else Except.ok 0) with
    | .error e => (.error e, st)
    | .ok n =>
      match lrangeAll st (q ++ ":inputs") with
      | .error e => (.error e, st)
      | .ok ins =>
        match lrangeAll st (q ++ ":outputs") with
        | .error e => (.error e, st)
        | .ok outs =>
          (.ok ((q ++ " was called " ++ intToBytes n ++ " times:") ::
            (List.zip ins outs).map (fun p =>
              q ++ "(*" ++ p.1 ++ ") -> b\x27" ++ p.2 ++ "\x27")), st)

/-! ### The page cache (`web.py`) -/

/-- Model of `cache_response` wrapping a fetch function `method`: increment
`count:url`, return the cached value at `result:url` when it is truthy
(Python `if result:` — `None` and empty bytes are both falsy), otherwise
fetch, cache for 10 seconds with `SETEX`, and return the fetched text.
A raise from the fetch propagates after the counter increment, before any
cache write. -/
def cacheResponse (method : String → Except String Bytes)
    (st : RedisState) (url : String) : Except String Bytes × RedisState :=
  match rincr st ("count:" ++ url) with
  | (.error e, st1) => (.error e, st1)
  | (.ok _, st1) =>
    match rget st1 ("result:" ++ url) with
    | .error e => (.error e, st1)
    | .ok result =>
      match result with
      | some cached =>
        if cached = "" then
          match method url with
          | .error e => (.error e, st1)
          | .ok fetched => (.ok fetched, rsetex st1 ("result:" ++ url) 10 fetched)
        else (.ok cached, st1)
      | none =>
        match method url with
        | .error e => (.error e, st1)
        | .ok fetched => (.ok fetched, rsetex st1 ("result:" ++ url) 10 fetched)

/-! ### Key names of the instrumented `Cache.store` -/

/-- Counter key of `Cache.store`. -/
def cKey : String := "Cache.store"

/-- Inputs-history key of `Cache.store`. -/
def iKey : String := "Cache.store:inputs"

/-- Outputs-history key of `Cache.store`. -/
def oKey : String := "Cache.store:outputs"

theorem iKey_eq : "Cache.store" ++ ":inputs" = iKey := rfl

theorem oKey_eq : "Cache.store" ++ ":outputs" = oKey := rfl

/-- C7: constructing a `Cache` flushes the database: whatever the prior
contents, every key is absent immediately after `Cache.__init__`. -/
theorem claim_C7_init_flushes (st : RedisState) (k : String) :
    Cache.init st k = none := rfl

/-- C5: `Cache.get` on a key that was never stored (absent from the
database), with no decoder, returns Python `None` and raises nothing. -/
theorem claim_C5_get_missing_returns_none (st : RedisState) (key : String)
    (h : st key = none) :
    Cache.get st key Option.none = .ok PyVal.vnone := by
  simp [Cache.get, rget, h]

/-- Witness for C5 at a concrete input: the empty database and key "nope". -/
theorem claim_C5_get_missing_returns_none_witness :
    rempty "nope" = none ∧
    Cache.get rempty "nope" Option.none = .ok PyVal.vnone :=
  ⟨rfl, claim_C5_get_missing_returns_none rempty "nope" rfl⟩

/-- C8: `replay` on an argument that does not resolve to an instrumented
method bound to a live Cache-backed instance — `None`, an unbound function,
or a bound method whose owner lacks a Redis handle — prints nothing, raises
nothing, and leaves the store unchanged. -/
theorem claim_C8_replay_invalid_noop (q : String) (st : RedisState) :
    replay FnRef.pynone st = (.ok [], st) ∧
    replay (FnRef.plainFn q) st = (.ok [], st) ∧
    replay (FnRef.boundNonRedis q) st = (.ok [], st) :=
  ⟨rfl, rfl, rfl⟩

/-- Inverting a successful run of `call_history`: the input push succeeded,
the delegate ran on the pushed state with the same arguments and produced the
returned value, and the output push of that value succeeded. -/
theorem callHistory_ok_inv (q : String) (m : Method) (st : RedisState)
    (args : List Scalar) (kwargs : List (String × Scalar)) (ret : Bytes)
    (st' : RedisState)
    (h : callHistory true q m st args kwargs = (.ok ret, st')) :
    ∃ a st1 st2 b, rpush st (q ++ ":inputs") (strArgs args) = (.ok a, st1) ∧
      m st1 args kwargs = (.ok ret, st2) ∧
      rpush st2 (q ++ ":outputs") ret = (.ok b, st') := by
  unfold callHistory at h
  simp only [if_true] at h
  split at h
  · simp at h
  · split at h
    · simp at h
    · split at h
      · simp at h
      · rename_i x1 a1 stA h1 x2 retv stB h2 x3 b stC h3
        simp only [Prod.mk.injEq] at h
        obtain ⟨hr, hs⟩ := h
        have hv := Except.ok.inj hr
        subst hv
        subst hs
        exact ⟨a1, stA, stB, b, h1, h2, h3⟩

/-- Inverting a successful run of `count_calls`: the increment succeeded and
the delegate ran on the incremented state with the same arguments. -/
theorem countCalls_ok_inv (q : String) (m : Method) (st : RedisState)
    (args : List Scalar) (kwargs : List (String × Scalar)) (ret : Bytes)
    (st' : RedisState)
    (h : countCalls true q m st args kwargs = (.ok ret, st')) :
    ∃ n st1, rincr st q = (.ok n, st1) ∧ m st1 args kwargs = (.ok ret, st') := by
  unfold countCalls at h
  simp only [if_true] at h
  split at h
  · simp at h
  · rename_i x1 n1 st1 h1
    exact ⟨n1, st1, h1, h⟩

/-- C1: a successful `Cache.store` returns the generated key, the serialized
value sits verbatim under that key, and reading the key back through
`Cache.get` with no decoder yields exactly those bytes — the stored value,
bit for bit. -/
theorem claim_C1_store_get_roundtrip (key : String) (st : RedisState)
    (data : Scalar) (ret : Bytes) (st' : RedisState)
    (h : Cache.store key st data = (.ok ret, st')) :
    ret = key ∧ st' key = some (RVal.str (Scalar.encode data)) ∧
    Cache.get st' key Option.none = .ok (PyVal.vbytes (Scalar.encode data)) := by
  obtain ⟨a, st1, st2, b, h1, h2, h3⟩ :=
    callHistory_ok_inv _ _ _ _ _ _ _ h
  obtain ⟨n, st1', hincr, hbody⟩ := countCalls_ok_inv _ _ _ _ _ _ _ h2
  have hbody' : (Except.ok key, rset st1' key (Scalar.encode data))
      = ((Except.ok ret : Except String Bytes), st2) := hbody
  have hretk : ret = key := (Except.ok.inj (congrArg Prod.fst hbody')).symm
  have hst2 : st2 = rset st1' key (Scalar.encode data) :=
    (congrArg Prod.snd hbody').symm
  have hko : key ≠ "Cache.store" ++ ":outputs" := by
    intro hk
    rw [hst2, ← hk, hretk] at h3
    have hself : rset st1' key (Scalar.encode data) key
        = some (RVal.str (Scalar.encode data)) := rupdate_self _ _ _
    simp [rpush, hself] at h3
  have hst' : st' = rupdate st2 ("Cache.store" ++ ":outputs")
      (RVal.list (listAt st2 ("Cache.store" ++ ":outputs") ++ [ret])) :=
    rpush_ok _ _ _ _ _ h3
  have hkey : st' key = some (RVal.str (Scalar.encode data)) := by
    rw [hst', rupdate_ne _ _ _ _ hko, hst2]
    exact rupdate_self _ _ _
  exact ⟨hretk, hkey, by simp [Cache.get, rget, hkey]⟩

/-- Witness for C1 at a concrete input: storing the text "foo" in the empty
database under the key "k". -/
theorem claim_C1_store_get_roundtrip_witness :
    Cache.store "k" rempty (Scalar.text "foo")
      = (.ok "k", (Cache.store "k" rempty (Scalar.text "foo")).2) ∧
    Cache.get (Cache.store "k" rempty (Scalar.text "foo")).2 "k" Option.none
      = .ok (PyVal.vbytes "foo") :=
  ⟨rfl, (claim_C1_store_get_roundtrip "k" rempty (Scalar.text "foo") "k"
      (Cache.store "k" rempty (Scalar.text "foo")).2 rfl).2.2⟩

theorem cKey_eq : ("Cache.store" : String) = cKey := rfl

theorem iKey_eq2 : cKey ++ ":inputs" = iKey := rfl

theorem oKey_eq2 : cKey ++ ":outputs" = oKey := rfl

theorem llen_eq (st : RedisState) (k : String) :
    llen st k = (listAt st k).length := by
  rcases hk : st k with _ | w
  · simp [llen, listAt, hk]
  · rcases w with b | xs
    · simp [llen, listAt, hk]
    · simp [llen, listAt, hk]

/-- Frame of `count_calls`: keys other than the counter key that the
delegate leaves unchanged are unchanged, whatever the outcome. -/
theorem countCalls_frame (q : String) (m : Method) (st : RedisState)
    (args : List Scalar) (kwargs : List (String × Scalar)) (x : String)
    (hq : x ≠ q)
    (hm : ∀ st0, (m st0 args kwargs).2 x = st0 x) :
    (countCalls true q m st args kwargs).2 x = st x := by
  unfold countCalls
  simp only [if_true]
  rcases hI : rincr st q with ⟨r, st1⟩
  have hfr : st1 x = st x := by
    have hf := rincr_frame st q x hq
    rw [hI] at hf
    exact hf
  cases r with
  | error e => exact hfr
  | ok n => exact (hm st1).trans hfr

/-- Frame of `call_history`: keys other than the two history keys that the
delegate leaves unchanged are unchanged, whatever the outcome. -/
theorem callHistory_frame (q : String) (m : Method) (st : RedisState)
    (args : List Scalar) (kwargs : List (String × Scalar)) (x : String)
    (hi : x ≠ q ++ ":inputs") (ho : x ≠ q ++ ":outputs")
    (hm : ∀ st0, (m st0 args kwargs).2 x = st0 x) :
    (callHistory true q m st args kwargs).2 x = st x := by
  unfold callHistory
  simp only [if_true]
  rcases h1 : rpush st (q ++ ":inputs") (strArgs args) with ⟨r1, st1⟩
  have f1 : st1 x = st x := by
    have hf := rpush_frame st (q ++ ":inputs") (strArgs args) x hi
    rw [h1] at hf
    exact hf
  cases r1 with
  | error e => exact f1
  | ok a =>
    dsimp only
    rcases h2 : m st1 args kwargs with ⟨r2, st2⟩
    have f2 : st2 x = st1 x := by
      have hf := hm st1
      rw [h2] at hf
      exact hf
    cases r2 with
    | error e => exact f2.trans f1
    | ok ret =>
      dsimp only
      rcases h3 : rpush st2 (q ++ ":outputs") ret with ⟨r3, st3⟩
      have f3 : st3 x = st2 x := by
        have hf := rpush_frame st2 (q ++ ":outputs") ret x ho
        rw [h3] at hf
        exact hf
      cases r3 with
      | error e => exact f3.trans (f2.trans f1)
      | ok b => exact f3.trans (f2.trans f1)

/-- Frame of the `Cache.store` body: only the generated key is written. -/
theorem storeBody_frame (key : String) (st : RedisState) (args : List Scalar)
    (kwargs : List (String × Scalar)) (x : String) (hx : x ≠ key) :
    (storeBody key st args kwargs).2 x = st x := by
  rcases args with _ | ⟨d, rest⟩
  · rfl
  · rcases rest with _ | ⟨d2, rest2⟩
    · exact rupdate_ne st key _ x hx
    · rfl

/-- C9: a call to the instrumented `Cache.store` touches at most the
generated key, the counter key `Cache.store`, and the two history keys
`Cache.store:inputs` / `Cache.store:outputs`; every other key keeps its
value, whatever the outcome of the call. -/
theorem claim_C9_store_frame (key : String) (st : RedisState) (data : Scalar)
    (k : String) (h1 : k ≠ key) (h2 : k ≠ cKey) (h3 : k ≠ iKey) (h4 : k ≠ oKey) :
    (Cache.store key st data).2 k = st k := by
  unfold Cache.store
  refine callHistory_frame "Cache.store" _ st [data] [] k ?_ ?_ ?_
  · rw [iKey_eq]
    exact h3
  · rw [oKey_eq]
    exact h4
  · intro st0
    refine countCalls_frame "Cache.store" _ st0 [data] [] k ?_ ?_
    · rw [cKey_eq]
      exact h2
    · intro st1
      exact storeBody_frame key st1 [data] [] k h1

/-- Witness for C9 at a concrete input: an unrelated key "other" keeps its
value across a store. -/
theorem claim_C9_store_frame_witness :
    (Cache.store "k" (rupdate rempty "other" (RVal.str "v"))
      (Scalar.int 7)).2 "other"
      = rupdate rempty "other" (RVal.str "v") "other" :=
  claim_C9_store_frame "k" (rupdate rempty "other" (RVal.str "v"))
    (Scalar.int 7) "other" (by decide) (by decide) (by decide) (by decide)

/-- C4: a call to the instrumented `Cache.store` whose wrapped operation
raises (`m` stands for the store body when its underlying `SET` fails; the
raise leaves the body's state untouched).  The error propagates, yet the
call counter was still incremented by 1 — the increment happens
unconditionally before delegation — and the input entry was appended while
no output entry was, so inputs ends up exactly one longer than outputs. -/
theorem claim_C4_raise_counts_input_only (m : Method) (st : RedisState)
    (d : Scalar) (e : String) (a : Nat) (n : Int) (st1 st2 : RedisState)
    (h1 : rpush st iKey (strArgs [d]) = (.ok a, st1))
    (h2 : rincr st1 cKey = (.ok n, st2))
    (hm : m st2 [d] [] = (.error e, st2))
    (hlen : llen st iKey = llen st oKey) :
    callHistory true "Cache.store" (countCalls true "Cache.store" m) st [d] []
      = (.error e, st2) ∧
    counterRead st2 cKey = some n ∧
    counterRead st cKey = some (n - 1) ∧
    llen st2 iKey = llen st iKey + 1 ∧
    st2 oKey = st oKey ∧
    llen st2 iKey = llen st2 oKey + 1 := by
  have hst1 : st1 = rupdate st iKey (RVal.list (listAt st iKey ++ [strArgs [d]])) :=
    rpush_ok _ _ _ _ _ h1
  obtain ⟨hst2, hc1⟩ := rincr_ok _ _ _ _ h2
  have hrun : callHistory true "Cache.store" (countCalls true "Cache.store" m)
      st [d] [] = (.error e, st2) := by
    unfold callHistory countCalls
    simp only [if_true, cKey_eq, iKey_eq2, oKey_eq2]
    rw [h1]
    dsimp only
    rw [h2]
    dsimp only
    rw [hm]
  have hc2 : counterRead st2 cKey = some n := by
    rw [hst2]
    simp only [counterRead, rupdate_self]
    exact bytesToInt_intToBytes n
  have hcs : st1 cKey = st cKey := by
    rw [hst1]
    exact rupdate_ne _ _ _ _ (by decide)
  have hc0 : counterRead st cKey = some (n - 1) := by
    rw [← hc1]
    unfold counterRead
    rw [hcs]
  have hiK : st2 iKey = some (RVal.list (listAt st iKey ++ [strArgs [d]])) := by
    rw [hst2, rupdate_ne _ _ _ _ (by decide : iKey ≠ cKey), hst1]
    exact rupdate_self _ _ _
  have hlI : llen st2 iKey = llen st iKey + 1 := by
    unfold llen
    rw [hiK]
    simp [← llen_eq st iKey, llen]
  have hoK : st2 oKey = st oKey := by
    rw [hst2, rupdate_ne _ _ _ _ (by decide : oKey ≠ cKey), hst1]
    exact rupdate_ne _ _ _ _ (by decide : oKey ≠ iKey)
  have hlO : llen st2 oKey = llen st oKey := by
    unfold llen
    rw [hoK]
  refine ⟨hrun, hc2, hc0, hlI, hoK, ?_⟩
  rw [hlI, hlO, hlen]

/-- A method body that always raises, standing for a `Cache.store` body whose
underlying `SET` fails. -/
def failBody : Method := fun s _ _ => (.error "boom", s)

/-- Intermediate states of the concrete C4 witness run. -/
def c4st1 : RedisState := (rpush rempty iKey (strArgs [Scalar.text "a"])).2

/-- Final state of the concrete C4 witness run. -/
def c4st2 : RedisState := (rincr c4st1 cKey).2

/-- Witness for C4 at a concrete input: a failing body under the decorators,
from the empty database. -/
theorem claim_C4_raise_counts_input_only_witness :
    callHistory true "Cache.store" (countCalls true "Cache.store" failBody)
      rempty [Scalar.text "a"] [] = (.error "boom", c4st2) ∧
    counterRead c4st2 cKey = some 1 ∧
    llen c4st2 iKey = llen c4st2 oKey + 1 := by
  obtain ⟨hrun, hc2, hc0, hlI, hoK, hfinal⟩ :=
    claim_C4_raise_counts_input_only failBody rempty (Scalar.text "a") "boom"
      1 1 c4st1 c4st2 rfl rfl rfl rfl
  exact ⟨hrun, hc2, hfinal⟩

/-! ### N successive calls to the instrumented `Cache.store` -/

/-- A generated key avoids the three bookkeeping keys of `Cache.store`
(a UUID4 string never collides with them). -/
def freshKey (k : String) : Prop := k ≠ cKey ∧ k ≠ iKey ∧ k ≠ oKey

instance freshKey.dec (k : String) : Decidable (freshKey k) :=
  inferInstanceAs (Decidable (k ≠ cKey ∧ k ≠ iKey ∧ k ≠ oKey))

/-- The key holds the counter value `n` the way `INCR` leaves it: absent when
`n = 0` (never incremented), its printed decimal otherwise. -/
def CtrIs (st : RedisState) (k : String) (n : Nat) : Prop :=
  st k = (if n = 0 then none else some (RVal.str (intToBytes (n : Int))))

/-- The key holds the list `l` the way `RPUSH` leaves it: absent when
`l = []` (never pushed), the list value otherwise. -/
def ListIs (st : RedisState) (k : String) (l : List Bytes) : Prop :=
  st k = (if l = [] then none else some (RVal.list l))

theorem rpush_listIs (st : RedisState) (k : String) (v : Bytes) (l : List Bytes)
    (h : ListIs st k l) :
    rpush st k v = (.ok (l.length + 1), rupdate st k (.list (l ++ [v]))) := by
  unfold ListIs at h
  by_cases hl : l = []
  · rw [if_pos hl] at h
    subst hl
    exact rpush_at_none st k v h
  · rw [if_neg hl] at h
    exact rpush_at_list st k v l h

theorem rincr_ctr (st : RedisState) (k : String) (n : Nat)
    (h : CtrIs st k n) :
    rincr st k = (.ok ((n : Int) + 1), rupdate st k (.str (intToBytes ((n : Int) + 1)))) := by
  unfold CtrIs at h
  by_cases hn : n = 0
  · rw [if_pos hn] at h
    subst hn
    have h0 := rincr_at_none st k h
    simpa using h0
  · rw [if_neg hn] at h
    exact rincr_at_int st k (n : Int) h

theorem ctrIs_counterRead (st : RedisState) (k : String) (n : Nat)
    (h : CtrIs st k n) : counterRead st k = some (n : Int) := by
  unfold CtrIs at h
  by_cases hn : n = 0
  · rw [if_pos hn] at h
    subst hn
    simp [counterRead, h]
  · rw [if_neg hn] at h
    simp [counterRead, h, bytesToInt_intToBytes]

theorem listIs_llen (st : RedisState) (k : String) (l : List Bytes)
    (h : ListIs st k l) : llen st k = l.length := by
  unfold ListIs at h
  by_cases hl : l = []
  · rw [if_pos hl] at h
    subst hl
    simp [llen, h]
  · rw [if_neg hl] at h
    simp [llen, h]

/-- Invariant after `n` completed calls to the instrumented `Cache.store`
from a fresh database: counter at `n`, both history lists of length `n`. -/
def StoreInv (st : RedisState) (n : Nat) : Prop :=
  CtrIs st cKey n ∧
  ∃ xs ys : List Bytes, xs.length = n ∧ ys.length = n ∧
    ListIs st iKey xs ∧ ListIs st oKey ys

/-- One instrumented `Cache.store` call from an invariant state with a fresh
key succeeds, returns the key, and re-establishes the invariant at `n + 1`. -/
theorem store_step (st : RedisState) (n : Nat) (k : String) (d : Scalar)
    (hk : freshKey k) (hInv : StoreInv st n) :
    ∃ st', Cache.store k st d = (.ok k, st') ∧ StoreInv st' (n + 1) := by
  obtain ⟨hk1, hk2, hk3⟩ := hk
  obtain ⟨hc, xs, ys, hxl, hyl, hx, hy⟩ := hInv
  have hp1 := rpush_listIs st iKey (strArgs [d]) xs hx
  have hc1 : CtrIs (rupdate st iKey (RVal.list (xs ++ [strArgs [d]]))) cKey n := by
    unfold CtrIs
    rw [rupdate_ne _ _ _ _ (by decide : cKey ≠ iKey)]
    exact hc
  have hp2 := rincr_ctr _ cKey n hc1
  have ho3 : ListIs (rset (rupdate (rupdate st iKey (RVal.list (xs ++ [strArgs [d]])))
      cKey (RVal.str (intToBytes ((n : Int) + 1)))) k (Scalar.encode d)) oKey ys := by
    unfold ListIs
    show rupdate _ k _ oKey = _
    rw [rupdate_ne _ _ _ _ (Ne.symm hk3)]
    rw [rupdate_ne _ _ _ _ (by decide : oKey ≠ cKey)]
    rw [rupdate_ne _ _ _ _ (by decide : oKey ≠ iKey)]
    exact hy
  have hp3 := rpush_listIs _ oKey k ys ho3
  refine ⟨rupdate (rset (rupdate (rupdate st iKey (RVal.list (xs ++ [strArgs [d]])))
      cKey (RVal.str (intToBytes ((n : Int) + 1)))) k (Scalar.encode d))
      oKey (RVal.list (ys ++ [k])), ?_, ?_⟩
  · unfold Cache.store callHistory countCalls storeBody
    simp only [if_true, cKey_eq, iKey_eq2, oKey_eq2]
    rw [hp1]
    dsimp only
    rw [hp2]
    dsimp only
    rw [hp3]
  · refine ⟨?_, xs ++ [strArgs [d]], ys ++ [k], by simp [hxl], by simp [hyl], ?_, ?_⟩
    · unfold CtrIs
      rw [if_neg (by omega : ¬ n + 1 = 0)]
      rw [rupdate_ne _ _ _ _ (by decide : cKey ≠ oKey)]
      show rupdate _ k _ cKey = _
      rw [rupdate_ne _ _ _ _ (Ne.symm hk1)]
      rw [rupdate_self]
      have hcast : (n : Int) + 1 = ((n + 1 : Nat) : Int) := by push_cast; ring
      rw [hcast]
    · unfold ListIs
      rw [if_neg (by simp : ¬ (xs ++ [strArgs [d]]) = [])]
      rw [rupdate_ne _ _ _ _ (by decide : iKey ≠ oKey)]
      show rupdate _ k _ iKey = _
      rw [rupdate_ne _ _ _ _ (Ne.symm hk2)]
      rw [rupdate_ne _ _ _ _ (by decide : iKey ≠ cKey)]
      rw [rupdate_self]
    · unfold ListIs
      rw [if_neg (by simp : ¬ (ys ++ [k]) = [])]
      rw [rupdate_self]

/-- Runs successive calls to the instrumented `Cache.store`, each with its
generated key and value; stops at the first raise. -/
def storeN : List (String × Scalar) → RedisState → Except String RedisState
  | [], st => .ok st
  | c :: rest, st =>
    match Cache.store c.1 st c.2 with
    | (.ok _, st') => storeN rest st'
    | (.error _, _) => .error "raised"

theorem storeN_inv (calls : List (String × Scalar)) : ∀ st n,
    (∀ p ∈ calls, freshKey p.1) → StoreInv st n →
    ∃ st', storeN calls st = .ok st' ∧ StoreInv st' (n + calls.length) := by
  induction calls with
  | nil =>
    intro st n _ hInv
    exact ⟨st, rfl, by simpa using hInv⟩
  | cons c rest ih =>
    intro st n hfresh hInv
    obtain ⟨st1, hrun, hInv1⟩ :=
      store_step st n c.1 c.2 (hfresh c (List.mem_cons_self _ _)) hInv
    obtain ⟨st', hrun', hInv'⟩ :=
      ih st1 (n + 1) (fun p hp => hfresh p (List.mem_cons_of_mem _ hp)) hInv1
    refine ⟨st', ?_, ?_⟩
    · unfold storeN
      rw [hrun]
      exact hrun'
    · have hlen : n + (c :: rest).length = n + 1 + rest.length := by
        simp [List.length_cons]
        omega
      rw [hlen]
      exact hInv'

/-- C2: starting from a fresh `Cache`, `N` calls to the instrumented
`Cache.store` with (collision-free) generated keys all succeed, the counter
under the qualified name `Cache.store` reads exactly `N`, and the inputs and
outputs histories each have length exactly `N` — in particular equal
lengths. -/
theorem claim_C2_counter_and_history_lengths (st0 : RedisState)
    (calls : List (String × Scalar))
    (hfresh : ∀ p ∈ calls, freshKey p.1) :
    ∃ st', storeN calls (Cache.init st0) = .ok st' ∧
      counterRead st' cKey = some (calls.length : Int) ∧
      llen st' iKey = calls.length ∧ llen st' oKey = calls.length := by
  have hInv0 : StoreInv (Cache.init st0) 0 :=
    ⟨rfl, [], [], rfl, rfl, rfl, rfl⟩
  obtain ⟨st', hrun, hc, xs, ys, hxl, hyl, hx, hy⟩ :=
    storeN_inv calls (Cache.init st0) 0 hfresh hInv0
  refine ⟨st', hrun, ?_, ?_, ?_⟩
  · have := ctrIs_counterRead st' cKey (0 + calls.length) hc
    simpa using this
  · have := listIs_llen st' iKey xs hx
    rw [this, hxl]
    omega
  · have := listIs_llen st' oKey ys hy
    rw [this, hyl]
    omega

/-- Witness for C2 at a concrete input: three stores from a fresh Cache give
counter 3 and histories of length 3. -/
theorem claim_C2_counter_and_history_lengths_witness :
    (∀ p ∈ [("ka", Scalar.text "a"), ("kb", Scalar.int 2),
        ("kc", Scalar.binary "c")], freshKey p.1) ∧
    ∃ st', storeN [("ka", Scalar.text "a"), ("kb", Scalar.int 2),
        ("kc", Scalar.binary "c")] (Cache.init rempty) = .ok st' ∧
      counterRead st' cKey = some (3 : Int) ∧
      llen st' iKey = 3 ∧ llen st' oKey = 3 :=
  ⟨by decide, claim_C2_counter_and_history_lengths rempty
    [("ka", Scalar.text "a"), ("kb", Scalar.int 2), ("kc", Scalar.binary "c")]
    (by decide)⟩

/-! ### Keyword arguments and `call_history` -/

theorem inputsKey_ne_outputsKey (q : String) : q ++ ":inputs" ≠ q ++ ":outputs" := by
  intro h
  have hd := congrArg String.data h
  rw [string_data_append, string_data_append] at hd
  have h2 := List.append_cancel_left hd
  have h3 : (":inputs" : String) = ":outputs" := congrArg String.mk h2
  exact absurd h3 (by decide)

/-- C10: an operation wrapped by `call_history` and called with keyword
arguments receives them unchanged — the call's value and state are those of
the delegate run on exactly the given `kwargs` — while the recorded input
entry is `strArgs args`, the display string of the positional-argument tuple
alone; the keyword arguments are omitted from it. -/
theorem claim_C10_kwargs_passthrough (q : String) (m : Method)
    (st : RedisState) (args : List Scalar) (kwargs : List (String × Scalar))
    (a : Nat) (st1 : RedisState) (ret : Bytes) (st2 : RedisState) (b : Nat)
    (st3 : RedisState)
    (h1 : rpush st (q ++ ":inputs") (strArgs args) = (.ok a, st1))
    (hm : m st1 args kwargs = (.ok ret, st2))
    (hfr : st2 (q ++ ":inputs") = st1 (q ++ ":inputs"))
    (h3 : rpush st2 (q ++ ":outputs") ret = (.ok b, st3)) :
    callHistory true q m st args kwargs = (.ok ret, st3) ∧
    listAt st3 (q ++ ":inputs") = listAt st (q ++ ":inputs") ++ [strArgs args] := by
  have hio := inputsKey_ne_outputsKey q
  constructor
  · unfold callHistory
    simp only [if_true]
    rw [h1]
    dsimp only
    rw [hm]
    dsimp only
    rw [h3]
  · have hst3 : st3 = rupdate st2 (q ++ ":outputs")
        (RVal.list (listAt st2 (q ++ ":outputs") ++ [ret])) := rpush_ok _ _ _ _ _ h3
    have hst1 : st1 = rupdate st (q ++ ":inputs")
        (RVal.list (listAt st (q ++ ":inputs") ++ [strArgs args])) := rpush_ok _ _ _ _ _ h1
    unfold listAt
    rw [hst3, rupdate_ne _ _ _ _ hio, hfr, hst1, rupdate_self]
    rfl

/-- A delegate that reveals the keyword arguments it receives by returning
their serialized values. -/
def spyBody : Method := fun s _ kw => (.ok (strArgs (kw.map Prod.snd)), s)

/-- State after the input push of the concrete C10 witness run. -/
def c10st1 : RedisState := (rpush rempty ("q" ++ ":inputs") (strArgs [Scalar.text "x"])).2

/-- Final state of the concrete C10 witness run. -/
def c10st3 : RedisState := (rpush c10st1 ("q" ++ ":outputs") (strArgs [Scalar.int 5])).2

/-- Witness for C10 at a concrete input: the spy receives the keyword
argument `n = 5` unchanged (its return value serializes it), while the
recorded entry mentions only the positional `"x"`. -/
theorem claim_C10_kwargs_passthrough_witness :
    callHistory true "q" spyBody rempty [Scalar.text "x"] [("n", Scalar.int 5)]
      = (.ok (strArgs [Scalar.int 5]), c10st3) ∧
    listAt c10st3 ("q" ++ ":inputs")
      = listAt rempty ("q" ++ ":inputs") ++ [strArgs [Scalar.text "x"]] :=
  claim_C10_kwargs_passthrough "q" spyBody rempty [Scalar.text "x"]
    [("n", Scalar.int 5)] 1 c10st1 (strArgs [Scalar.int 5]) c10st1 1 c10st3
    rfl rfl rfl rfl

/-! ### The page cache claims -/

theorem resultKey_ne_countKey (u : String) : "result:" ++ u ≠ "count:" ++ u := by
  intro h
  have h2 : ('r' : Char) = 'c' := by
    have hd := congrArg String.data h
    have e1 : ("result:" ++ u).data = 'r' :: ("esult:" ++ u).data := rfl
    have e2 : ("count:" ++ u).data = 'c' :: ("ount:" ++ u).data := rfl
    rw [e1, e2] at hd
    exact (List.cons.inj hd).1
  exact absurd h2 (by decide)

/-- C3 counterexample: the wrapper tests the cached value with Python
truthiness (`if result:`), so a PRESENT but EMPTY cached result under
`result:u` is treated as a miss: with a fetcher returning "X" the call
returns "X", not the cached "", and with a raising fetcher the raise
surfaces — a network fetch did occur although a cached result was present. -/
theorem claim_C3_counterexample :
    (rupdate rempty "result:u" (RVal.str "")) "result:u" = some (RVal.str "") ∧
    (cacheResponse (fun _ => .ok "X")
      (rupdate rempty "result:u" (RVal.str "")) "u").1 = .ok "X" ∧
    (cacheResponse (fun _ => .ok "X")
      (rupdate rempty "result:u" (RVal.str "")) "u").1 ≠ .ok "" ∧
    (cacheResponse (fun _ => .error "boom")
      (rupdate rempty "result:u" (RVal.str "")) "u").1 = .error "boom" := by
  refine ⟨rfl, rfl, ?_, rfl⟩
  intro h
  have h2 : ("X" : Bytes) = "" := by
    have h1 : (Except.ok ("X" : Bytes) : Except String Bytes) = .ok "" := by
      rw [← h]
      rfl
    exact Except.ok.inj h1
  exact absurd h2 (by decide)

/-- C3, amended: if a NON-EMPTY cached result is present under
`result:{url}` when the wrapped fetch is called (and the counter increment
succeeds), the call returns that cached content decoded as text, for every
fetch function alike — no fetch occurs — and only the per-URL counter key
changed. -/
theorem claim_C3_cached_hit_amended (url : String) (st : RedisState)
    (method : String → Except String Bytes) (n : Int) (st1 : RedisState)
    (c : Bytes)
    (hincr : rincr st ("count:" ++ url) = (.ok n, st1))
    (hcache : st1 ("result:" ++ url) = some (RVal.str c))
    (hne : c ≠ "") :
    cacheResponse method st url = (.ok c, st1) ∧
    (∀ x, x ≠ "count:" ++ url → st1 x = st x) := by
  have hget : rget st1 ("result:" ++ url) = .ok (some c) := by
    simp [rget, hcache]
  constructor
  · unfold cacheResponse
    rw [hincr]
    dsimp only
    rw [hget]
    dsimp only
    rw [if_neg hne]
  · intro x hx
    have hfr := rincr_frame st ("count:" ++ url) x hx
    rw [hincr] at hfr
    exact hfr

/-- Witness for the amended C3 at a concrete input: with "hi" cached under
`result:u`, even a fetcher that would raise is never consulted and the
cached text is returned. -/
theorem claim_C3_cached_hit_amended_witness :
    cacheResponse (fun _ => .error "nofetch")
      (rupdate rempty "result:u" (RVal.str "hi")) "u"
      = (.ok "hi",
        (rincr (rupdate rempty "result:u" (RVal.str "hi")) ("count:" ++ "u")).2) :=
  (claim_C3_cached_hit_amended "u" (rupdate rempty "result:u" (RVal.str "hi"))
    (fun _ => .error "nofetch") 1
    (rincr (rupdate rempty "result:u" (RVal.str "hi")) ("count:" ++ "u")).2
    "hi" rfl rfl (by decide)).1

/-- C6: when the page cache misses (`result:{url}` absent — or cached empty,
which the truthiness test also treats as a miss) and the underlying fetch
raises, the exception propagates unchanged, the `count:{url}` counter was
still incremented by 1, and no cache entry was written under
`result:{url}`. -/
theorem claim_C6_fetch_error_propagates (url : String) (st : RedisState)
    (method : String → Except String Bytes) (e : String) (n : Int)
    (st1 : RedisState) (c0 : Int)
    (hincr : rincr st ("count:" ++ url) = (.ok n, st1))
    (hc0 : counterRead st ("count:" ++ url) = some c0)
    (hmiss : st1 ("result:" ++ url) = none ∨
      st1 ("result:" ++ url) = some (RVal.str ""))
    (hfetch : method url = .error e) :
    cacheResponse method st url = (.error e, st1) ∧
    counterRead st1 ("count:" ++ url) = some (c0 + 1) ∧
    st1 ("result:" ++ url) = st ("result:" ++ url) := by
  obtain ⟨hst1, hprev⟩ := rincr_ok _ _ _ _ hincr
  have hcnt : counterRead st1 ("count:" ++ url) = some (c0 + 1) := by
    rw [hst1]
    simp only [counterRead, rupdate_self]
    rw [bytesToInt_intToBytes]
    have hn : n = c0 + 1 := by
      rw [hc0] at hprev
      have := Option.some.inj hprev
      omega
    rw [hn]
  have hres : st1 ("result:" ++ url) = st ("result:" ++ url) := by
    rw [hst1]
    exact rupdate_ne _ _ _ _ (resultKey_ne_countKey url)
  refine ⟨?_, hcnt, hres⟩
  rcases hmiss with hm | hm
  · have hget : rget st1 ("result:" ++ url) = .ok none := by simp [rget, hm]
    unfold cacheResponse
    rw [hincr]
    dsimp only
    rw [hget]
    dsimp only
    rw [hfetch]
  · have hget : rget st1 ("result:" ++ url) = .ok (some "") := by simp [rget, hm]
    unfold cacheResponse
    rw [hincr]
    dsimp only
    rw [hget]
    dsimp only
    rw [if_pos rfl]
    rw [hfetch]

/-- Witness for C6 at a concrete input: fetch failure on the empty database
propagates with counter 1. -/
theorem claim_C6_fetch_error_propagates_witness :
    cacheResponse (fun _ => .error "down") rempty "u"
      = (.error "down", (rincr rempty ("count:" ++ "u")).2) ∧
    counterRead (rincr rempty ("count:" ++ "u")).2 ("count:" ++ "u")
      = some 1 := by
  obtain ⟨h1, h2, h3⟩ :=
    claim_C6_fetch_error_propagates "u" rempty (fun _ => .error "down") "down"
      1 (rincr rempty ("count:" ++ "u")).2 0 rfl rfl (Or.inl rfl) rfl
  exact ⟨h1, h2⟩
